import Mathlib

/-
Verification of the threshold-bucketing and color-mapping core of posterust
(src/lib.rs), as a shallow embedding: u8 values become `Nat` with explicit
`% 256` where wrap-around is possible, fallible or panicking Rust code becomes
`Option`/`Except`, and `HashMap<u8, Srgb<u8>>` becomes an association list
whose lookup takes the most recent insertion.
-/

set_option maxHeartbeats 1000000

/-- Color with 8-bit RGB channels, modelling the `palette::Srgb<u8>` values
built and stored by the program. -/
structure Color where
  red : Nat
  green : Nat
  blue : Nat
deriving DecidableEq, Repr

/-- Error kinds of the CLI (`CliError` in lib.rs). Payloads are dropped:
only the constructor matters for the claims under verification. -/
inductive CliError where
  | file
  | parse
  | time
  | invalidHex
deriving DecidableEq, Repr

deriving instance DecidableEq for Except

/-- Association-list model of `HashMap<u8, Srgb<u8>>::insert`: prepend, so a
later insertion of the same key shadows an earlier one, matching replacement. -/
def hmInsert (k : Nat) (v : Color) (m : List (Nat × Color)) : List (Nat × Color) :=
  (k, v) :: m

/-- Association-list model of `HashMap::get`: first (most recent) binding wins. -/
def hmGet : List (Nat × Color) → Nat → Option Color
  | [], _ => none
  | (k, v) :: rest, key => if k = key then some v else hmGet rest key

/-- Value of one hexadecimal digit character, as accepted by
`u8::from_str_radix(_, 16)` (via `char::to_digit(16)`, which compares code
points: 48-57 are `0`-`9`, 97-102 are `a`-`f`, 65-70 are `A`-`F`). -/
def hexDigitVal (c : Char) : Option Nat :=
  if 48 ≤ c.toNat ∧ c.toNat ≤ 57 then some (c.toNat - 48)
  else if 97 ≤ c.toNat ∧ c.toNat ≤ 102 then some (c.toNat - 97 + 10)
  else if 65 ≤ c.toNat ∧ c.toNat ≤ 70 then some (c.toNat - 65 + 10)
  else none

/-- Digit-accumulation loop of `from_str_radix`. Overflow is not modelled:
`parse_color` only ever parses 2-character slices, whose value is at most
0xFF and hence always fits in a u8. -/
def parseDigitsGo : List Char → Nat → Option Nat
  | [], acc => some acc
  | c :: rest, acc =>
    match hexDigitVal c with
    | none => none
    | some d => parseDigitsGo rest (acc * 16 + d)

/-- Model of `u8::from_str_radix(s, 16)`: an optional leading `+` is accepted,
an empty string, a bare `+`, or any non-digit character (including `-`, which
unsigned parsing rejects as a digit) is a parse error (`none`). -/
def fromStrRadix16 (s : List Char) : Option Nat :=
  match s with
  | [] => none
  | c :: rest =>
    if c = '+' then
      match rest with
      | [] => none
      | _ => parseDigitsGo rest 0
    else parseDigitsGo s 0

/-- UTF-8 encoded width of a character, exactly as `char::len_utf8` in Rust:
1 byte below U+0080, 2 below U+0800, 3 below U+10000, otherwise 4. -/
def charWidth (c : Char) : Nat :=
  if c.toNat < 0x80 then 1
  else if c.toNat < 0x800 then 2
  else if c.toNat < 0x10000 then 3
  else 4

/-- Suffix of a character list starting at byte offset `i` of its UTF-8
encoding, or `none` when `i` falls inside a character or past the end —
the char-boundary check of `str::get` on the lower bound of a range. -/
def byteDrop : Nat → List Char → Option (List Char)
  | 0, s => some s
  | _ + 1, [] => none
  | i + 1, c :: t =>
    if charWidth c ≤ i + 1 then byteDrop (i + 1 - charWidth c) t else none

/-- Characters spanning the first `j` bytes of the UTF-8 encoding of a
character list, or `none` when `j` falls inside a character or past the end —
the char-boundary check of `str::get` on the upper bound of a range. -/
def byteTake : Nat → List Char → Option (List Char)
  | 0, _ => some []
  | _ + 1, [] => none
  | j + 1, c :: t =>
    if charWidth c ≤ j + 1 then (byteTake (j + 1 - charWidth c) t).map (fun r => c :: r)
    else none

/-- Model of the byte slice `s.get(i..i + 2)`: `str::get` is byte-indexed and
returns `None` when either end of the range is not a UTF-8 char boundary or
lies past the end of the string; otherwise the characters spanning bytes
`[i, i + 2)` (two 1-byte characters, or a single 2-byte character). -/
def slice2 (s : List Char) (i : Nat) : Option (List Char) :=
  (byteDrop i s).bind (fun suffix => byteTake 2 suffix)

/-- Model of `parse_color` in lib.rs: the slices `0..2`, `2..4`, `4..6` are
taken and parsed in that order as red, green, blue; a missing slice yields
`CliError::InvalidHex`, a slice that fails `from_str_radix` yields
`CliError::Parse` (propagated by `?`). Characters past index 5 are never read. -/
def parse_color (c : List Char) : Except CliError Color :=
  match slice2 c 0 with
  | none => .error .invalidHex
  | some s1 =>
    match fromStrRadix16 s1 with
    | none => .error .parse
    | some red =>
      match slice2 c 2 with
      | none => .error .invalidHex
      | some s2 =>
        match fromStrRadix16 s2 with
        | none => .error .parse
        | some green =>
          match slice2 c 4 with
          | none => .error .invalidHex
          | some s3 =>
            match fromStrRadix16 s3 with
            | none => .error .parse
            | some blue => .ok ⟨red, green, blue⟩

/-- Model of `str::trim_start_matches("#")`: drop every leading `#`. -/
def stripHash (s : List Char) : List Char := s.dropWhile (fun c => c = '#')

/-- Model of `luma_threshold` in lib.rs. With `num = 0` the Rust expression
`255 / num` panics (division by zero), modelled as `none`; the u8 product
`i * step` is taken `% 256`. -/
def luma_threshold (num : Nat) : Option (List Nat) :=
  if num = 0 then none
  else some ((List.range num).map fun i => (i * (255 / num)) % 256)

/-- Clamping of one requested level to at most 10, after the `val < 11` check
in `luma_threshold_custom` (the warning printout is not modelled). -/
def clampLevel (v : Nat) : Nat := if v < 11 then v else 10

/-- Model of `Vec::dedup`: remove consecutive repeated elements. -/
def dedupConsec : List Nat → List Nat
  | [] => []
  | [a] => [a]
  | a :: b :: rest =>
    if a = b then dedupConsec (b :: rest) else a :: dedupConsec (b :: rest)

/-- Clamped, sorted, deduplicated level list built at the start of
`luma_threshold_custom` (local variable `levels` there). -/
def levelsOf (values : List Nat) : List Nat :=
  dedupConsec (List.insertionSort (· ≤ ·) (values.map clampLevel))

/-- Loop of `luma_threshold_custom` (`for n in 0..11`): `fuel` counts the
remaining iterations, `n` is the current index, and the out-of-range accesses
`levels.get(..).unwrap()`, which panic in Rust, are propagated as `none`. -/
def customGo (levels : List Nat) : Nat → Nat → Nat → Nat → Option (List Nat)
  | 0, _, _, _ => some []
  | fuel + 1, n, counter, next =>
    match levels.get? counter with
    | none => none
    | some L =>
      let item := (L * 23) % 256
      if n + 1 = next then
        if counter + 1 < levels.length - 1 then
          match levels.get? (counter + 2) with
          | none => none
          | some nx => (customGo levels fuel (n + 1) (counter + 1) nx).map (fun t => item :: t)
        else
          (customGo levels fuel (n + 1) (counter + 1) next).map (fun t => item :: t)
      else
        (customGo levels fuel (n + 1) counter next).map (fun t => item :: t)

/-- Model of `luma_threshold_custom` in lib.rs. The initial read
`levels.get(1).unwrap()` panics when fewer than two distinct clamped levels
remain, modelled as `none`. -/
def luma_threshold_custom (values : List Nat) : Option (List Nat) :=
  match (levelsOf values).get? 1 with
  | none => none
  | some nx => customGo (levelsOf values) 11 0 0 nx

/-- Loop of `luma_threshold_keep`: walk the stepped sequence, bump `counter`
at every value change, and emit `counter * step` (a u8 product, hence `% 256`). -/
def keepGo (step : Nat) : List Nat → Nat → Nat → List Nat
  | [], _, _ => []
  | i :: rest, counter, curr =>
    if i ≠ curr then ((counter + 1) * step) % 256 :: keepGo step rest (counter + 1) i
    else (counter * step) % 256 :: keepGo step rest counter curr

/-- Model of `luma_threshold_keep` in lib.rs. `num = 0` makes `255 / num`
panic and an empty input makes `vec.get(0).unwrap()` panic, both `none`. -/
def luma_threshold_keep (vec : List Nat) (num : Nat) : Option (List Nat) :=
  if num = 0 then none
  else
    match vec with
    | [] => none
    | c :: _ => some (keepGo (255 / num) vec 0 c)

/-- Loop of `get_threshold_key`: `key` holds the boundary seen on the previous
iteration (initially the first boundary). -/
def thresholdGo (in_color : Nat) : Nat → List Nat → Nat
  | key, [] => key
  | key, i :: rest => if in_color ≤ i then key else thresholdGo in_color i rest

/-- Model of `get_threshold_key` in lib.rs. The initial read `luma_vec[0]`
panics on an empty slice, modelled as `none`. -/
def get_threshold_key (in_color : Nat) (luma_vec : List Nat) : Option Nat :=
  match luma_vec with
  | [] => none
  | k :: _ => some (thresholdGo in_color k luma_vec)

/-- Model of `get_greyscale_hashmap` in lib.rs: every element but the last maps
to its own grey triple, and the last element is inserted as pure white. -/
def get_greyscale_hashmap (luma_zones : List Nat) : List (Nat × Color) :=
  match luma_zones.getLast? with
  | none => []
  | some last =>
    hmInsert last ⟨255, 255, 255⟩
      (luma_zones.dropLast.foldl (fun m x => hmInsert x ⟨x, x, x⟩ m) [])

/-- Model of `get_custom_greyscale_hashmap` in lib.rs: every element maps to
its own grey triple; there is no white override. -/
def get_custom_greyscale_hashmap (luma_zones : List Nat) : List (Nat × Color) :=
  luma_zones.foldl (fun m x => hmInsert x ⟨x, x, x⟩ m) []

/-- Loop of `get_color_hashmap`, over the zipped color/boundary pairs. -/
def gchGo : List (List Char × Nat) → List (Nat × Color) → Except CliError (List (Nat × Color))
  | [], m => .ok m
  | (color, luma) :: rest, m =>
    match parse_color (stripHash color) with
    | .error e => .error e
    | .ok c => gchGo rest (hmInsert luma c m)

/-- Model of `get_color_hashmap` in lib.rs: zip the supplied colors with the
boundary values and insert each parsed color under its boundary key. -/
def get_color_hashmap (colors : List (List Char)) (luma_zones : List Nat) :
    Except CliError (List (Nat × Color)) :=
  gchGo (colors.zip luma_zones) []

/-- Loop of `get_color_hashmap_custom`: the color index `counter` advances at
every boundary-value change; the unchecked index `colors[counter]` panics in
Rust when out of range, modelled as `none`. -/
def gchcGo (colors : List (List Char)) :
    List Nat → Nat → Nat → List (Nat × Color) → Option (Except CliError (List (Nat × Color)))
  | [], _, _, m => some (.ok m)
  | luma :: rest, counter, curr, m =>
    let counter' := if luma ≠ curr then counter + 1 else counter
    let curr' := if luma ≠ curr then luma else curr
    match colors.get? counter' with
    | none => none
    | some color =>
      match parse_color (stripHash color) with
      | .error e => some (.error e)
      | .ok c => gchcGo colors rest counter' curr' (hmInsert luma c m)

/-- Model of `get_color_hashmap_custom` in lib.rs. The initial read
`luma_zones[0]` panics on an empty slice, modelled as `none`. -/
def get_color_hashmap_custom (colors : List (List Char)) (luma_zones : List Nat) :
    Option (Except CliError (List (Nat × Color))) :=
  match luma_zones with
  | [] => none
  | c :: _ => gchcGo colors luma_zones 0 c []

/-- Outcome of the configuration phase of `run` (lib.rs lines 71-122): either
a Rust panic (`crash`), the early mismatch return, a propagated color-parse
error, or the boundary sequence and color mapping handed to the pixel loop. -/
inductive RunSetup where
  | crash
  | mismatch
  | hexError (e : CliError)
  | proceed (luma_vec : List Nat) (gmap : List (Nat × Color))
deriving DecidableEq, Repr

/-- Shared `if !opt.keep` branch of `run`: plain custom thresholds, or the
keep-mode rederivation of the custom thresholds. -/
def customOrKeep (values : List Nat) (values_len : Nat) (keep : Bool) : Option (List Nat) :=
  if !keep then luma_threshold_custom values
  else (luma_threshold_custom values).bind fun t => luma_threshold_keep t values_len

/-- Model of the configuration phase of `run` in lib.rs: the `match` on
`values.len() as u8` (hence `% 256`), the colors/values mismatch check, and
the construction of the boundary sequence and color mapping. -/
def runConfig (numSteps : Nat) (values : List Nat) (colors : List (List Char))
    (keep : Bool) : RunSetup :=
  let values_len := values.length % 256
  let colors_len := colors.length % 256
  if values_len = 0 then
    if colors_len = 0 then
      match luma_threshold numSteps with
      | none => .crash
      | some lv => .proceed lv (get_greyscale_hashmap lv)
    else
      match luma_threshold colors_len with
      | none => .crash
      | some lv =>
        match get_color_hashmap colors lv with
        | .error e => .hexError e
        | .ok m => .proceed lv m
  else if 2 ≤ values_len ∧ values_len ≤ 11 then
    if colors_len = 0 then
      match customOrKeep values values_len keep with
      | none => .crash
      | some lv => .proceed lv (get_custom_greyscale_hashmap lv)
    else if values_len ≠ colors_len then .mismatch
    else
      match customOrKeep values values_len keep with
      | none => .crash
      | some lv =>
        match get_color_hashmap_custom colors lv with
        | none => .crash
        | some (.error e) => .hexError e
        | some (.ok m) => .proceed lv m
  else .crash

/-! ### Helper lemmas -/

theorem getLast?_cons_getD (a : Nat) (l : List Nat) :
    (a :: l).getLast? = some (l.getLast?.getD a) := by
  cases l with
  | nil => rfl
  | cons b t =>
    rw [List.getLast?_cons_cons]
    have h : (b :: t).getLast?.isSome := by
      rw [List.getLast?_isSome]
      simp
    obtain ⟨x, hx⟩ := Option.isSome_iff_exists.mp h
    rw [hx]
    rfl

theorem thresholdGo_eq_filter (v : Nat) :
    ∀ (l : List Nat) (key : Nat), List.Pairwise (· ≤ ·) l →
      thresholdGo v key l = ((l.filter (fun b => b < v)).getLast?).getD key := by
  intro l
  induction l with
  | nil => intro key _; rfl
  | cons i rest ih =>
    intro key hp
    rw [List.pairwise_cons] at hp
    obtain ⟨hall, hrest⟩ := hp
    by_cases hv : v ≤ i
    · have h1 : (i :: rest).filter (fun b => b < v) = [] := by
        rw [List.filter_eq_nil_iff]
        intro a ha
        have : i ≤ a ∨ a = i := by
          rcases List.mem_cons.mp ha with h | h
          · right; exact h
          · left; exact hall a h
        simp only [decide_eq_true_eq]
        omega
      rw [thresholdGo, if_pos hv, h1]
      rfl
    · have hiv : i < v := by omega
      have h1 : (i :: rest).filter (fun b => b < v) =
          i :: rest.filter (fun b => b < v) := by
        rw [List.filter_cons_of_pos]
        simp only [decide_eq_true_eq]
        omega
      rw [thresholdGo, if_neg hv, ih i hrest, h1, getLast?_cons_getD]
      rfl

/-! ### C1 -/

/-- Definition following the words of the specification contract of the Bucket
Resolver (claim C1): scan the boundaries in ascending order and return the
first boundary `b` with `v ≤ b`; if none exists, return the last boundary. -/
def specResolve (v : Nat) (boundaries : List Nat) : Option Nat :=
  match boundaries.find? (fun b => v ≤ b) with
  | some b => some b
  | none => boundaries.getLast?

/-- C1 counterexample: on boundaries `[0, 127]` and luminance 50 the
specification contract demands the first boundary with `50 ≤ b`, namely 127,
but `get_threshold_key` returns 0 (the boundary preceding it). -/
theorem C1_counterexample :
    specResolve 50 [0, 127] = some 127 ∧
    get_threshold_key 50 [0, 127] = some 0 ∧ (127 : Nat) ≠ 0 := by decide

/-- C1 amended: for a non-empty, ascending (non-decreasing) boundary sequence,
`get_threshold_key v boundaries` returns the boundary immediately preceding the
first boundary `b` with `v ≤ b` — that is, the greatest boundary strictly below
`v` — falling back to the first boundary when `v` does not exceed it and to the
last boundary when every boundary is below `v`. -/
theorem C1_theorem : ∀ (v k : Nat) (t : List Nat), List.Pairwise (· ≤ ·) (k :: t) →
    get_threshold_key v (k :: t) =
      some ((((k :: t).filter (fun b => b < v)).getLast?).getD k) := by
  intro v k t hp
  rw [get_threshold_key]
  rw [thresholdGo_eq_filter v (k :: t) k hp]

/-- C1 witness: the amended characterization evaluated at luminance 50 on
boundaries `[0, 127]`. -/
theorem C1_witness :
    get_threshold_key 50 [0, 127] =
      some ((([0, 127].filter (fun b => b < 50)).getLast?).getD 0) :=
  C1_theorem 50 0 [127] (by decide)

/-! ### Lookup through the insertion fold shared by the map builders -/

theorem hmGet_foldl (f : Nat → Color) :
    ∀ (l : List Nat) (init : List (Nat × Color)) (k : Nat),
      hmGet (l.foldl (fun m x => hmInsert x (f x) m) init) k =
        if k ∈ l then some (f k) else hmGet init k := by
  intro l
  induction l with
  | nil => intro init k; simp
  | cons x rest ih =>
    intro init k
    rw [List.foldl_cons, ih]
    by_cases hk : k ∈ rest
    · simp [hk]
    · rw [if_neg hk]
      by_cases hx : x = k
      · subst hx
        simp [hmInsert, hmGet]
      · have h1 : hmGet (hmInsert x (f x) init) k = hmGet init k := by
          rw [hmInsert, hmGet, if_neg hx]
        have h2 : k ∉ x :: rest := by
          intro h
          rcases List.mem_cons.mp h with h | h
          · exact hx h.symm
          · exact hk h
        rw [h1, if_neg h2]

/-! ### C2 -/

/-- C2 counterexample: in the custom-levels path (`values = [0, 5]`, no
colors), the boundary sequence has topmost distinct boundary 115, yet
`get_custom_greyscale_hashmap` maps 115 to the grey triple (115,115,115), not
to pure white — the white override exists only in `get_greyscale_hashmap`. -/
theorem C2_counterexample :
    luma_threshold_custom [0, 5] =
      some [0, 0, 0, 0, 0, 115, 115, 115, 115, 115, 115] ∧
    hmGet (get_custom_greyscale_hashmap [0, 0, 0, 0, 0, 115, 115, 115, 115, 115, 115]) 115 =
      some ⟨115, 115, 115⟩ ∧
    (Color.mk 115 115 115) ≠ (Color.mk 255 255 255) := by decide

/-- C2 amended: `get_greyscale_hashmap` (even-split path) maps the last
boundary value to pure white (255,255,255) and every other boundary value `v`
to the grey triple (v,v,v); `get_custom_greyscale_hashmap` (custom-levels
path) maps every boundary value `v`, including the topmost, to (v,v,v), with
no white override. -/
theorem C2_theorem : ∀ (l : List Nat),
    (∀ last, l.getLast? = some last →
      hmGet (get_greyscale_hashmap l) last = some ⟨255, 255, 255⟩ ∧
      (∀ v ∈ l, v ≠ last → hmGet (get_greyscale_hashmap l) v = some ⟨v, v, v⟩)) ∧
    (∀ v ∈ l, hmGet (get_custom_greyscale_hashmap l) v = some ⟨v, v, v⟩) := by
  intro l
  constructor
  · intro last hlast
    have hgg : get_greyscale_hashmap l =
        hmInsert last ⟨255, 255, 255⟩
          (l.dropLast.foldl (fun m x => hmInsert x ⟨x, x, x⟩ m) []) := by
      rw [get_greyscale_hashmap, hlast]
    constructor
    · rw [hgg]
      simp [hmInsert, hmGet]
    · intro v hv hne
      have hdecomp : l.dropLast ++ [last] = l := List.dropLast_append_getLast? last hlast
      have hvdrop : v ∈ l.dropLast := by
        rw [← hdecomp] at hv
        rcases List.mem_append.mp hv with h | h
        · exact h
        · simp at h
          exact absurd h hne
      rw [hgg]
      show hmGet ((last, ⟨255, 255, 255⟩) :: _) v = _
      rw [hmGet, if_neg (fun h => hne h.symm), hmGet_foldl]
      simp [hvdrop]
  · intro v hv
    rw [get_custom_greyscale_hashmap, hmGet_foldl]
    simp [hv]

/-- C2 witness: the amended statement evaluated on the even-split boundaries
`[0, 127]` (last boundary 127 maps to white, boundary 0 to grey) and on the
custom-path boundaries `[0, 0, 115]` (topmost boundary 115 stays grey). -/
theorem C2_witness :
    hmGet (get_greyscale_hashmap [0, 127]) 127 = some ⟨255, 255, 255⟩ ∧
    hmGet (get_greyscale_hashmap [0, 127]) 0 = some ⟨0, 0, 0⟩ ∧
    hmGet (get_custom_greyscale_hashmap [0, 0, 115]) 115 = some ⟨115, 115, 115⟩ :=
  ⟨((C2_theorem [0, 127]).1 127 (by decide)).1,
   ((C2_theorem [0, 127]).1 127 (by decide)).2 0 (by decide) (by decide),
   (C2_theorem [0, 0, 115]).2 115 (by decide)⟩

/-! ### C4 -/

/-- C4: with `num_steps = 2` and no values or colors, the configuration phase
produces boundaries `[0, 127]`; luminance 50 resolves to bucket key 0, which
the greyscale mapping sends to (0,0,0), and luminance 200 resolves to bucket
key 127, which maps to pure white (255,255,255) via the topmost override. -/
theorem C4_theorem :
    luma_threshold 2 = some [0, 127] ∧
    (∃ m, runConfig 2 [] [] false = RunSetup.proceed [0, 127] m) ∧
    get_threshold_key 50 [0, 127] = some 0 ∧
    hmGet (get_greyscale_hashmap [0, 127]) 0 = some ⟨0, 0, 0⟩ ∧
    get_threshold_key 200 [0, 127] = some 127 ∧
    hmGet (get_greyscale_hashmap [0, 127]) 127 = some ⟨255, 255, 255⟩ :=
  ⟨by decide, ⟨get_greyscale_hashmap [0, 127], by decide⟩, by decide, by decide,
   by decide, by decide⟩

/-! ### C5 -/

/-- Even-split boundary sequence exactly as the specification words it:
`n` boundaries, the `i`-th being `i * floor(255 / n)`. -/
def lumaSpec (n : Nat) : List Nat := (List.range n).map fun i => i * (255 / n)

/-- C5: for every `n` in `[1, 11]`, `luma_threshold n` succeeds and returns
exactly `n` strictly ascending values whose `i`-th element is
`i * floor(255 / n)`; in particular the sequence starts at 0 and every element
is a multiple of `floor(255 / n)`. -/
theorem C5_theorem : ∀ (n : Nat), 1 ≤ n → n ≤ 11 →
    luma_threshold n = some (lumaSpec n) ∧
    (lumaSpec n).length = n ∧
    List.Pairwise (· < ·) (lumaSpec n) ∧
    (lumaSpec n).head? = some 0 ∧
    (∀ i, i < n → (lumaSpec n).get? i = some (i * (255 / n))) ∧
    (∀ x ∈ lumaSpec n, x % (255 / n) = 0) := by
  intro n h1 h2
  interval_cases n <;> exact (by decide)

/-- C5 witness: the even-split theorem evaluated at `n = 5` (the default). -/
theorem C5_witness :
    luma_threshold 5 = some (lumaSpec 5) ∧
    (lumaSpec 5).length = 5 ∧
    List.Pairwise (· < ·) (lumaSpec 5) ∧
    (lumaSpec 5).head? = some 0 ∧
    (∀ i, i < 5 → (lumaSpec 5).get? i = some (i * (255 / 5))) ∧
    (∀ x ∈ lumaSpec 5, x % (255 / 5) = 0) :=
  C5_theorem 5 (by decide) (by decide)

/-! ### C7 -/

/-- C7: when a values list with 2 to 11 entries and a non-empty colors list
(of at most 255 entries, so that the `len() as u8` cast is the length itself)
are both supplied with differing lengths, the configuration phase of `run`
stops at the mismatch check: no boundary sequence or color mapping is built
and the pixel loop is never reached. -/
theorem C7_theorem : ∀ (numSteps : Nat) (values : List Nat) (colors : List (List Char))
    (keep : Bool), 2 ≤ values.length → values.length ≤ 11 →
    1 ≤ colors.length → colors.length ≤ 255 →
    values.length ≠ colors.length →
    runConfig numSteps values colors keep = RunSetup.mismatch := by
  intro ns values colors keep h1 h2 h3 h4 h5
  have hv : values.length % 256 = values.length := Nat.mod_eq_of_lt (by omega)
  have hc : colors.length % 256 = colors.length := Nat.mod_eq_of_lt (by omega)
  simp only [runConfig, hv, hc]
  rw [if_neg (by omega), if_pos (by constructor <;> omega),
    if_neg (by omega), if_pos (by omega)]

/-- C7 witness: the specification's own example, `values = [0,5,9]` with two
colors, is rejected as a mismatch. -/
theorem C7_witness :
    runConfig 5 [0, 5, 9] ["#FF0000".toList, "#0000FF".toList] false = RunSetup.mismatch :=
  C7_theorem 5 [0, 5, 9] ["#FF0000".toList, "#0000FF".toList] false
    (by decide) (by decide) (by decide) (by decide) (by decide)

/-! ### Slice and hex-pair helpers for the parse_color claims -/

theorem charWidth_pos (c : Char) : 0 < charWidth c := by
  rw [charWidth]
  split
  · omega
  · split
    · omega
    · split
      · omega
      · omega

theorem hexDigit_ascii (c : Char) (h : (hexDigitVal c).isSome = true) :
    charWidth c = 1 := by
  rw [hexDigitVal] at h
  by_cases h1 : 48 ≤ c.toNat ∧ c.toNat ≤ 57
  · rw [charWidth, if_pos (by omega)]
  · rw [if_neg h1] at h
    by_cases h2 : 97 ≤ c.toNat ∧ c.toNat ≤ 102
    · rw [charWidth, if_pos (by omega)]
    · rw [if_neg h2] at h
      by_cases h3 : 65 ≤ c.toNat ∧ c.toNat ≤ 70
      · rw [charWidth, if_pos (by omega)]
      · rw [if_neg h3] at h
        simp at h

theorem byteDrop_ascii : ∀ (s : List Char) (i : Nat), (∀ c ∈ s, charWidth c = 1) →
    i ≤ s.length → byteDrop i s = some (s.drop i) := by
  intro s
  induction s with
  | nil =>
    intro i _ hi
    have h0 : i = 0 := by simpa using hi
    subst h0
    rw [byteDrop, List.drop_zero]
  | cons c t ih =>
    intro i hw hi
    cases i with
    | zero => rw [byteDrop, List.drop_zero]
    | succ j =>
      have hc : charWidth c = 1 := hw c (List.mem_cons_self c t)
      rw [byteDrop, hc, if_pos (by omega)]
      simp only [Nat.add_sub_cancel]
      rw [ih j (fun x hx => hw x (List.mem_cons_of_mem c hx)) (by simpa using hi)]
      rfl

theorem byteDrop_ascii_none : ∀ (s : List Char) (i : Nat), (∀ c ∈ s, charWidth c = 1) →
    s.length < i → byteDrop i s = none := by
  intro s
  induction s with
  | nil =>
    intro i _ hi
    cases i with
    | zero => simp at hi
    | succ j => rw [byteDrop]
  | cons c t ih =>
    intro i hw hi
    cases i with
    | zero => simp at hi
    | succ j =>
      have hc : charWidth c = 1 := hw c (List.mem_cons_self c t)
      rw [byteDrop, hc, if_pos (by omega)]
      simp only [Nat.add_sub_cancel]
      exact ih j (fun x hx => hw x (List.mem_cons_of_mem c hx))
        (by rw [List.length_cons] at hi; omega)

theorem byteTake_ascii2 (a b : Char) (t : List Char) (ha : charWidth a = 1)
    (hb : charWidth b = 1) : byteTake 2 (a :: b :: t) = some [a, b] := by
  show byteTake (1 + 1) (a :: b :: t) = some [a, b]
  rw [byteTake, ha, if_pos (by omega)]
  rw [show (1 + 1 - 1 : Nat) = 0 + 1 from rfl]
  rw [byteTake, hb, if_pos (by omega)]
  rw [show (0 + 1 - 1 : Nat) = 0 from rfl, byteTake]
  rfl

theorem byteTake_ascii1 (a : Char) (ha : charWidth a = 1) : byteTake 2 [a] = none := by
  show byteTake (1 + 1) [a] = none
  rw [byteTake, ha, if_pos (by omega)]
  rfl

theorem slice2_some (s : List Char) (i : Nat) (hw : ∀ c ∈ s, charWidth c = 1)
    (h : i + 2 ≤ s.length) : ∃ a b, slice2 s i = some [a, b] ∧ a ∈ s ∧ b ∈ s := by
  have hlen : 2 ≤ (s.drop i).length := by
    rw [List.length_drop]
    omega
  match hdrop : s.drop i with
  | [] => rw [hdrop] at hlen; simp at hlen
  | [a] => rw [hdrop] at hlen; simp at hlen
  | a :: b :: t =>
    have hamem : a ∈ s := List.drop_subset i s (hdrop ▸ List.mem_cons_self a (b :: t))
    have hbmem : b ∈ s :=
      List.drop_subset i s (hdrop ▸ List.mem_cons_of_mem a (List.mem_cons_self b t))
    refine ⟨a, b, ?_, hamem, hbmem⟩
    rw [slice2, byteDrop_ascii s i hw (by omega), hdrop, Option.some_bind]
    exact byteTake_ascii2 a b t (hw a hamem) (hw b hbmem)

theorem slice2_none (s : List Char) (i : Nat) (hw : ∀ c ∈ s, charWidth c = 1)
    (h : s.length < i + 2) : slice2 s i = none := by
  by_cases hi : i ≤ s.length
  · rw [slice2, byteDrop_ascii s i hw hi, Option.some_bind]
    have hlen : (s.drop i).length < 2 := by
      rw [List.length_drop]
      omega
    match hdrop : s.drop i with
    | [] => rfl
    | [a] =>
      exact byteTake_ascii1 a (hw a (List.drop_subset i s (hdrop ▸ List.mem_cons_self a [])))
    | a :: b :: t =>
      rw [hdrop] at hlen
      simp at hlen
      omega
  · rw [slice2, byteDrop_ascii_none s i hw (by omega)]
    rfl

theorem fromStrRadix16_pair (a b : Char) (ha : (hexDigitVal a).isSome = true)
    (hb : (hexDigitVal b).isSome = true) :
    fromStrRadix16 [a, b] = some ((hexDigitVal a).getD 0 * 16 + (hexDigitVal b).getD 0) := by
  obtain ⟨da, hda⟩ := Option.isSome_iff_exists.mp ha
  obtain ⟨db, hdb⟩ := Option.isSome_iff_exists.mp hb
  have hplus : ¬ a = '+' := by
    intro h
    subst h
    rw [show hexDigitVal '+' = none from by decide] at hda
    cases hda
  rw [fromStrRadix16, if_neg hplus, hda, hdb]
  case x_1 => simp
  simp only [Option.getD_some]
  simp only [parseDigitsGo, hda, hdb]
  norm_num

theorem parse_color_long (s : List Char) (hw : ∀ c ∈ s, charWidth c = 1)
    (h : 6 ≤ s.length) : parse_color s ≠ Except.error CliError.invalidHex := by
  obtain ⟨a1, b1, h1, _, _⟩ := slice2_some s 0 hw (by omega)
  obtain ⟨a2, b2, h2, _, _⟩ := slice2_some s 2 hw (by omega)
  obtain ⟨a3, b3, h3, _, _⟩ := slice2_some s 4 hw (by omega)
  simp only [parse_color, h1, h2, h3]
  cases hf1 : fromStrRadix16 [a1, b1] with
  | none => simp
  | some red =>
    cases hf2 : fromStrRadix16 [a2, b2] with
    | none => simp
    | some green =>
      cases hf3 : fromStrRadix16 [a3, b3] with
      | none => simp
      | some blue => simp

theorem parse_color_short (s : List Char) (hhex : ∀ c ∈ s, (hexDigitVal c).isSome = true)
    (hlen : s.length < 6) : parse_color s = Except.error CliError.invalidHex := by
  have hw : ∀ c ∈ s, charWidth c = 1 := fun c hc => hexDigit_ascii c (hhex c hc)
  by_cases h2 : s.length < 2
  · simp only [parse_color, slice2_none s 0 hw (by omega)]
  · by_cases h4 : s.length < 4
    · obtain ⟨a, b, h1, ha, hb⟩ := slice2_some s 0 hw (by omega)
      simp only [parse_color, h1, fromStrRadix16_pair a b (hhex a ha) (hhex b hb),
        slice2_none s 2 hw (by omega)]
    · obtain ⟨a1, b1, h1, ha1, hb1⟩ := slice2_some s 0 hw (by omega)
      obtain ⟨a2, b2, hs2, ha2, hb2⟩ := slice2_some s 2 hw (by omega)
      simp only [parse_color, h1, hs2,
        fromStrRadix16_pair a1 b1 (hhex a1 ha1) (hhex b1 hb1),
        fromStrRadix16_pair a2 b2 (hhex a2 ha2) (hhex b2 hb2),
        slice2_none s 4 hw (by omega)]

/-! ### C8 -/

/-- C8 counterexample: `"AABBCCDD"` is not exactly 6 hexadecimal characters,
yet `parse_color` returns `Ok` (the two extra characters are never read), so
the Invalid-Hex error is not returned for every such string. -/
theorem C8_counterexample :
    parse_color ("AABBCCDD".toList) = Except.ok ⟨170, 187, 204⟩ ∧
    ("AABBCCDD".toList).length ≠ 6 := by decide

/-- C8 amended: `parse_color` returns the Invalid-Hex error exactly when one
of the three byte slices `0..2`, `2..4`, `4..6` fails while all earlier slices
parsed — either because the string is too short in bytes or because a slice
end falls inside a multi-byte character: in particular Invalid-Hex for every
string of hexadecimal characters shorter than 6, never for a string of at
least 6 one-byte (ASCII) characters (those yield `Ok` of the first 6
characters or a `Parse` error for a non-hex digit, extra characters ignored),
while a non-ASCII string can still produce Invalid-Hex through the
char-boundary check, e.g. six euro signs. -/
theorem C8_theorem :
    (∀ (s : List Char),
      ((∀ c ∈ s, charWidth c = 1) → 6 ≤ s.length →
        parse_color s ≠ Except.error CliError.invalidHex) ∧
      ((∀ c ∈ s, (hexDigitVal c).isSome = true) → s.length < 6 →
        parse_color s = Except.error CliError.invalidHex)) ∧
    parse_color ("€€€€€€".toList) = Except.error CliError.invalidHex :=
  ⟨fun s => ⟨parse_color_long s, parse_color_short s⟩, by decide⟩

/-- C8 witness: the amended statement evaluated on the 4-character hex string
`"ABCD"` (Invalid-Hex) and on the 8-character ASCII string `"AABBCCDD"` (no
Invalid-Hex). -/
theorem C8_witness :
    parse_color ("ABCD".toList) = Except.error CliError.invalidHex ∧
    parse_color ("AABBCCDD".toList) ≠ Except.error CliError.invalidHex :=
  ⟨(C8_theorem.1 ("ABCD".toList)).2 (by decide) (by decide),
   (C8_theorem.1 ("AABBCCDD".toList)).1 (by decide) (by decide)⟩

/-! ### C9 -/

/-- Modelled from the spec: upper-case hexadecimal digit character for a value
below 16 (`encode_color` is not part of the repository; the claim defines the
encoding as the standard `RRGGBB` hex string). -/
def toHexUpper (d : Nat) : Char :=
  match d with
  | 0 => '0' | 1 => '1' | 2 => '2' | 3 => '3' | 4 => '4'
  | 5 => '5' | 6 => '6' | 7 => '7' | 8 => '8' | 9 => '9'
  | 10 => 'A' | 11 => 'B' | 12 => 'C' | 13 => 'D' | 14 => 'E'
  | _ => 'F'

/-- Modelled from the spec: lower-case hexadecimal digit character for a value
below 16. -/
def toHexLower (d : Nat) : Char :=
  match d with
  | 0 => '0' | 1 => '1' | 2 => '2' | 3 => '3' | 4 => '4'
  | 5 => '5' | 6 => '6' | 7 => '7' | 8 => '8' | 9 => '9'
  | 10 => 'a' | 11 => 'b' | 12 => 'c' | 13 => 'd' | 14 => 'e'
  | _ => 'f'

/-- Modelled from the spec: `encode_color` as the 6-digit upper-case `RRGGBB`
hexadecimal string of a color. -/
def encodeColorUpper (c : Color) : List Char :=
  [toHexUpper (c.red / 16), toHexUpper (c.red % 16),
   toHexUpper (c.green / 16), toHexUpper (c.green % 16),
   toHexUpper (c.blue / 16), toHexUpper (c.blue % 16)]

/-- Modelled from the spec: `encode_color` as the 6-digit lower-case `RRGGBB`
hexadecimal string of a color. -/
def encodeColorLower (c : Color) : List Char :=
  [toHexLower (c.red / 16), toHexLower (c.red % 16),
   toHexLower (c.green / 16), toHexLower (c.green % 16),
   toHexLower (c.blue / 16), toHexLower (c.blue % 16)]

theorem hexDigitVal_toHexUpper : ∀ d, d < 16 →
    hexDigitVal (toHexUpper d) = some d ∧ ¬ toHexUpper d = '+' := by decide

theorem hexDigitVal_toHexLower : ∀ d, d < 16 →
    hexDigitVal (toHexLower d) = some d ∧ ¬ toHexLower d = '+' := by decide

theorem fromStrRadix16_hexPair (tab : Nat → Char)
    (htab : ∀ d, d < 16 → hexDigitVal (tab d) = some d ∧ ¬ tab d = '+')
    (n : Nat) (hn : n < 256) :
    fromStrRadix16 [tab (n / 16), tab (n % 16)] = some n := by
  have hhi : n / 16 < 16 := by omega
  have hlo : n % 16 < 16 := Nat.mod_lt n (by norm_num)
  obtain ⟨ehi, _⟩ := htab (n / 16) hhi
  obtain ⟨elo, _⟩ := htab (n % 16) hlo
  rw [fromStrRadix16_pair (tab (n / 16)) (tab (n % 16))
    (by rw [ehi]; rfl) (by rw [elo]; rfl), ehi, elo]
  simp only [Option.getD_some]
  congr 1
  rw [Nat.mul_comm (n / 16) 16]
  exact Nat.div_add_mod n 16

theorem toHexUpper_width : ∀ d, charWidth (toHexUpper d) = 1 := by
  intro d
  unfold toHexUpper
  split <;> rfl

theorem toHexLower_width : ∀ d, charWidth (toHexLower d) = 1 := by
  intro d
  unfold toHexLower
  split <;> rfl

theorem parse_color_six (c1 c2 c3 c4 c5 c6 : Char) (v1 v2 v3 : Nat)
    (hw : ∀ c ∈ [c1, c2, c3, c4, c5, c6], charWidth c = 1)
    (h1 : fromStrRadix16 [c1, c2] = some v1)
    (h2 : fromStrRadix16 [c3, c4] = some v2)
    (h3 : fromStrRadix16 [c5, c6] = some v3) :
    parse_color [c1, c2, c3, c4, c5, c6] = Except.ok ⟨v1, v2, v3⟩ := by
  have w1 : charWidth c1 = 1 := hw c1 (by simp)
  have w2 : charWidth c2 = 1 := hw c2 (by simp)
  have w3 : charWidth c3 = 1 := hw c3 (by simp)
  have w4 : charWidth c4 = 1 := hw c4 (by simp)
  have w5 : charWidth c5 = 1 := hw c5 (by simp)
  have w6 : charWidth c6 = 1 := hw c6 (by simp)
  have s0 : slice2 [c1, c2, c3, c4, c5, c6] 0 = some [c1, c2] := by
    rw [slice2, byteDrop, Option.some_bind]
    exact byteTake_ascii2 c1 c2 [c3, c4, c5, c6] w1 w2
  have s2 : slice2 [c1, c2, c3, c4, c5, c6] 2 = some [c3, c4] := by
    rw [slice2, byteDrop_ascii _ 2 hw (by simp), Option.some_bind]
    exact byteTake_ascii2 c3 c4 [c5, c6] w3 w4
  have s4 : slice2 [c1, c2, c3, c4, c5, c6] 4 = some [c5, c6] := by
    rw [slice2, byteDrop_ascii _ 4 hw (by simp), Option.some_bind]
    exact byteTake_ascii2 c5 c6 [] w5 w6
  simp only [parse_color, s0, s2, s4, h1, h2, h3]

/-- C9: for every RGB triple with 8-bit channels, encoding it as its 6-digit
hexadecimal `RRGGBB` string — upper- or lower-case, with no leading `#`, as
the callers leave it after stripping — and parsing it back with `parse_color`
returns the original triple. -/
theorem C9_theorem : ∀ (r g b : Nat), r < 256 → g < 256 → b < 256 →
    parse_color (encodeColorUpper ⟨r, g, b⟩) = Except.ok ⟨r, g, b⟩ ∧
    parse_color (encodeColorLower ⟨r, g, b⟩) = Except.ok ⟨r, g, b⟩ := by
  intro r g b hr hg hb
  constructor
  · refine parse_color_six _ _ _ _ _ _ r g b ?_
      (fromStrRadix16_hexPair toHexUpper hexDigitVal_toHexUpper r hr)
      (fromStrRadix16_hexPair toHexUpper hexDigitVal_toHexUpper g hg)
      (fromStrRadix16_hexPair toHexUpper hexDigitVal_toHexUpper b hb)
    intro c hc
    simp only [List.mem_cons, List.not_mem_nil, or_false] at hc
    rcases hc with rfl | rfl | rfl | rfl | rfl | rfl <;> exact toHexUpper_width _
  · refine parse_color_six _ _ _ _ _ _ r g b ?_
      (fromStrRadix16_hexPair toHexLower hexDigitVal_toHexLower r hr)
      (fromStrRadix16_hexPair toHexLower hexDigitVal_toHexLower g hg)
      (fromStrRadix16_hexPair toHexLower hexDigitVal_toHexLower b hb)
    intro c hc
    simp only [List.mem_cons, List.not_mem_nil, or_false] at hc
    rcases hc with rfl | rfl | rfl | rfl | rfl | rfl <;> exact toHexLower_width _

/-- C9 witness: the round trip evaluated at the triple (170, 187, 204),
whose encodings are `"AABBCC"` and `"aabbcc"`. -/
theorem C9_witness :
    parse_color (encodeColorUpper ⟨170, 187, 204⟩) = Except.ok ⟨170, 187, 204⟩ ∧
    parse_color (encodeColorLower ⟨170, 187, 204⟩) = Except.ok ⟨170, 187, 204⟩ :=
  C9_theorem 170 187 204 (by decide) (by decide) (by decide)

/-! ### Helpers for the never-panics invariant of the pixel loop (C3) -/

theorem thresholdGo_mem (v : Nat) :
    ∀ (l : List Nat) (key : Nat), thresholdGo v key l = key ∨ thresholdGo v key l ∈ l := by
  intro l
  induction l with
  | nil => intro key; left; rfl
  | cons i rest ih =>
    intro key
    rw [thresholdGo]
    by_cases hv : v ≤ i
    · left; rw [if_pos hv]
    · rw [if_neg hv]
      rcases ih i with h | h
      · right; rw [h]; exact List.mem_cons_self i rest
      · right; exact List.mem_cons_of_mem i h

theorem get_threshold_key_mem (v : Nat) (l : List Nat) (k : Nat)
    (h : get_threshold_key v l = some k) : k ∈ l := by
  cases l with
  | nil => cases h
  | cons k0 t =>
    rw [get_threshold_key] at h
    injection h with h
    rcases thresholdGo_mem v (k0 :: t) k0 with h2 | h2
    · rw [← h, h2]; exact List.mem_cons_self k0 t
    · rw [← h]; exact h2

theorem get_threshold_key_isSome (v : Nat) (l : List Nat) (h : l ≠ []) :
    ∃ k, get_threshold_key v l = some k := by
  cases l with
  | nil => exact absurd rfl h
  | cons k0 t => exact ⟨thresholdGo v k0 (k0 :: t), rfl⟩

theorem get_greyscale_hashmap_keys (l : List Nat) (last : Nat)
    (hlast : l.getLast? = some last) (k : Nat) :
    (hmGet (get_greyscale_hashmap l) k).isSome = true ↔ k ∈ l := by
  have hgg : get_greyscale_hashmap l =
      hmInsert last ⟨255, 255, 255⟩
        (l.dropLast.foldl (fun m x => hmInsert x ⟨x, x, x⟩ m) []) := by
    rw [get_greyscale_hashmap, hlast]
  have hdecomp : l.dropLast ++ [last] = l := List.dropLast_append_getLast? last hlast
  rw [hgg, hmInsert]
  by_cases hk : last = k
  · subst hk
    rw [hmGet, if_pos rfl]
    simp only [Option.isSome_some, true_iff]
    rw [← hdecomp]
    exact List.mem_append.mpr (Or.inr (List.mem_cons_self last []))
  · rw [hmGet, if_neg hk, hmGet_foldl]
    constructor
    · intro h
      by_cases hd : k ∈ l.dropLast
      · rw [← hdecomp]; exact List.mem_append.mpr (Or.inl hd)
      · rw [if_neg hd] at h
        cases h
    · intro h
      have hd : k ∈ l.dropLast := by
        rw [← hdecomp] at h
        rcases List.mem_append.mp h with h2 | h2
        · exact h2
        · simp at h2
          exact absurd h2.symm hk
      rw [if_pos hd]
      rfl

theorem get_custom_greyscale_hashmap_keys (l : List Nat) (k : Nat) :
    (hmGet (get_custom_greyscale_hashmap l) k).isSome = true ↔ k ∈ l := by
  rw [get_custom_greyscale_hashmap, hmGet_foldl]
  by_cases hk : k ∈ l
  · simp [hk]
  · simp [hk, hmGet]

theorem gchGo_ok_keys :
    ∀ (pairs : List (List Char × Nat)) (m M : List (Nat × Color)),
      gchGo pairs m = .ok M → ∀ k,
        ((hmGet M k).isSome = true ↔ k ∈ pairs.map Prod.snd ∨ (hmGet m k).isSome = true) := by
  intro pairs
  induction pairs with
  | nil =>
    intro m M h k
    rw [gchGo] at h
    injection h with h
    subst h
    simp
  | cons p rest ih =>
    intro m M h k
    obtain ⟨color, luma⟩ := p
    rw [gchGo] at h
    cases hp : parse_color (stripHash color) with
    | error e => rw [hp] at h; cases h
    | ok c =>
      rw [hp] at h
      rw [ih (hmInsert luma c m) M h k]
      have hins : (hmGet (hmInsert luma c m) k).isSome = true ↔
          luma = k ∨ (hmGet m k).isSome = true := by
        rw [hmInsert, hmGet]
        by_cases hl : luma = k
        · simp [hl]
        · simp [hl]
      rw [hins]
      simp only [List.map_cons, List.mem_cons]
      constructor
      · rintro (h2 | h2 | h2)
        · left; right; exact h2
        · left; left; exact h2.symm
        · right; exact h2
      · rintro ((h2 | h2) | h2)
        · right; left; exact h2.symm
        · left; exact h2
        · right; right; exact h2

theorem gchcGo_ok_keys (colors : List (List Char)) :
    ∀ (lumas : List Nat) (counter curr : Nat) (m M : List (Nat × Color)),
      gchcGo colors lumas counter curr m = some (.ok M) → ∀ k,
        ((hmGet M k).isSome = true ↔ k ∈ lumas ∨ (hmGet m k).isSome = true) := by
  intro lumas
  induction lumas with
  | nil =>
    intro counter curr m M h k
    rw [gchcGo] at h
    injection h with h
    injection h with h
    subst h
    simp
  | cons luma rest ih =>
    intro counter curr m M h k
    rw [gchcGo] at h
    cases hcol : colors.get? (if luma ≠ curr then counter + 1 else counter) with
    | none =>
      simp only [hcol] at h
      exact Option.noConfusion h
    | some color =>
      simp only [hcol] at h
      cases hp : parse_color (stripHash color) with
      | error e =>
        simp only [hp] at h
        injection h with h
        exact Except.noConfusion h
      | ok c =>
        simp only [hp] at h
        rw [ih _ _ (hmInsert luma c m) M h k]
        have hins : (hmGet (hmInsert luma c m) k).isSome = true ↔
            luma = k ∨ (hmGet m k).isSome = true := by
          rw [hmInsert, hmGet]
          by_cases hl : luma = k
          · simp [hl]
          · simp [hl]
        rw [hins]
        simp only [List.mem_cons]
        constructor
        · rintro (h2 | h2 | h2)
          · left; right; exact h2
          · left; left; exact h2.symm
          · right; exact h2
        · rintro ((h2 | h2) | h2)
          · right; left; exact h2.symm
          · left; exact h2
          · right; right; exact h2

theorem customGo_ne_nil (levels : List Nat) (fuel n counter next : Nat) (l : List Nat)
    (h : customGo levels (fuel + 1) n counter next = some l) : l ≠ [] := by
  rw [customGo] at h
  split at h
  · exact Option.noConfusion h
  · split at h
    · split at h
      · split at h
        · exact Option.noConfusion h
        · obtain ⟨t, _, hl⟩ := Option.map_eq_some'.mp h
          rw [← hl]; simp
      · obtain ⟨t, _, hl⟩ := Option.map_eq_some'.mp h
        rw [← hl]; simp
    · obtain ⟨t, _, hl⟩ := Option.map_eq_some'.mp h
      rw [← hl]; simp

theorem luma_threshold_some (num : Nat) (l : List Nat) (h : luma_threshold num = some l) :
    l.length = num ∧ l ≠ [] ∧ num ≠ 0 := by
  rw [luma_threshold] at h
  by_cases h0 : num = 0
  · rw [if_pos h0] at h
    exact Option.noConfusion h
  · rw [if_neg h0] at h
    injection h with h
    subst h
    refine ⟨by simp, ?_, h0⟩
    rw [← List.length_pos]
    simp
    omega

theorem keepGo_length (step : Nat) :
    ∀ (v : List Nat) (counter curr : Nat), (keepGo step v counter curr).length = v.length := by
  intro v
  induction v with
  | nil => intro _ _; rfl
  | cons i rest ih =>
    intro counter curr
    rw [keepGo]
    by_cases h : i ≠ curr
    · rw [if_pos h]; simp [ih]
    · rw [if_neg h]; simp [ih]

theorem luma_threshold_keep_ne_nil (vec : List Nat) (num : Nat) (l : List Nat)
    (h : luma_threshold_keep vec num = some l) : l ≠ [] := by
  rw [luma_threshold_keep.eq_def] at h
  split at h
  · exact Option.noConfusion h
  · split at h
    · exact Option.noConfusion h
    · injection h with h
      rw [← h, ← List.length_pos, keepGo_length]
      simp

theorem luma_threshold_custom_ne_nil (values : List Nat) (l : List Nat)
    (h : luma_threshold_custom values = some l) : l ≠ [] := by
  rw [luma_threshold_custom] at h
  split at h
  · exact Option.noConfusion h
  · exact customGo_ne_nil (levelsOf values) 10 0 0 _ l h

theorem customOrKeep_ne_nil (values : List Nat) (n : Nat) (keep : Bool) (l : List Nat)
    (h : customOrKeep values n keep = some l) : l ≠ [] := by
  rw [customOrKeep] at h
  split at h
  · exact luma_threshold_custom_ne_nil values l h
  · obtain ⟨t, _, h2⟩ := Option.bind_eq_some.mp h
    exact luma_threshold_keep_ne_nil t n l h2

theorem setup_parts (lv : List Nat) (m : List (Nat × Color)) (hne : lv ≠ [])
    (hkeys : ∀ k, (hmGet m k).isSome = true ↔ k ∈ lv) :
    (∀ k, (hmGet m k).isSome = true ↔ k ∈ lv) ∧
    (∀ v, ∃ k, get_threshold_key v lv = some k ∧ (hmGet m k).isSome = true) := by
  refine ⟨hkeys, fun v => ?_⟩
  obtain ⟨k, hk⟩ := get_threshold_key_isSome v lv hne
  exact ⟨k, hk, (hkeys k).mpr (get_threshold_key_mem v lv k hk)⟩

theorem greyscale_keys_of_ne_nil (l : List Nat) (hne : l ≠ []) (k : Nat) :
    (hmGet (get_greyscale_hashmap l) k).isSome = true ↔ k ∈ l := by
  obtain ⟨last, hlast⟩ := Option.isSome_iff_exists.mp (List.getLast?_isSome.mpr hne)
  exact get_greyscale_hashmap_keys l last hlast k

theorem get_color_hashmap_keys (colors : List (List Char)) (lv : List Nat)
    (M : List (Nat × Color)) (h : get_color_hashmap colors lv = .ok M)
    (hlen : lv.length ≤ colors.length) (k : Nat) :
    (hmGet M k).isSome = true ↔ k ∈ lv := by
  rw [get_color_hashmap] at h
  rw [gchGo_ok_keys _ _ _ h k, List.map_snd_zip colors lv hlen]
  simp [hmGet]

theorem get_color_hashmap_custom_keys (colors : List (List Char)) (lv : List Nat)
    (M : List (Nat × Color)) (h : get_color_hashmap_custom colors lv = some (.ok M)) (k : Nat) :
    (hmGet M k).isSome = true ↔ k ∈ lv := by
  cases lv with
  | nil => rw [get_color_hashmap_custom] at h; exact Option.noConfusion h
  | cons c rest =>
    rw [get_color_hashmap_custom] at h
    rw [gchcGo_ok_keys colors (c :: rest) 0 c [] M h k]
    simp [hmGet]

/-! ### C3 -/

/-- C3: whenever the configuration phase of `run` reaches the per-pixel loop
(outcome `proceed`), the key set of the constructed color mapping is exactly
the set of distinct values of the boundary sequence, and consequently for
every luminance value the bucket key resolved by `get_threshold_key` has a
color in the mapping — the `unwrap` in the pixel loop never panics. -/
theorem C3_theorem : ∀ (numSteps : Nat) (values : List Nat) (colors : List (List Char))
    (keep : Bool) (lv : List Nat) (m : List (Nat × Color)),
    runConfig numSteps values colors keep = RunSetup.proceed lv m →
    (∀ k, (hmGet m k).isSome = true ↔ k ∈ lv) ∧
    (∀ v, ∃ k, get_threshold_key v lv = some k ∧ (hmGet m k).isSome = true) := by
  intro ns values colors keep lv m h
  simp only [runConfig] at h
  split at h
  · split at h
    · split at h
      · exact RunSetup.noConfusion h
      · rename_i lv0 hlt
        injection h with h1 h2
        subst h1
        subst h2
        have hne := (luma_threshold_some _ _ hlt).2.1
        exact setup_parts _ _ hne (greyscale_keys_of_ne_nil _ hne)
    · split at h
      · exact RunSetup.noConfusion h
      · rename_i lv0 hlt
        split at h
        · exact RunSetup.noConfusion h
        · rename_i m0 hok
          injection h with h1 h2
          subst h1
          subst h2
          obtain ⟨hlen, hne, _⟩ := luma_threshold_some _ _ hlt
          refine setup_parts _ _ hne (fun k => ?_)
          exact get_color_hashmap_keys colors _ _ hok
            (by rw [hlen]; exact Nat.mod_le _ _) k
  · split at h
    · split at h
      · split at h
        · exact RunSetup.noConfusion h
        · rename_i lv0 hck
          injection h with h1 h2
          subst h1
          subst h2
          have hne := customOrKeep_ne_nil _ _ _ _ hck
          exact setup_parts _ _ hne (get_custom_greyscale_hashmap_keys _)
      · split at h
        · exact RunSetup.noConfusion h
        · split at h
          · exact RunSetup.noConfusion h
          · rename_i lv0 hck
            split at h
            · exact RunSetup.noConfusion h
            · exact RunSetup.noConfusion h
            · rename_i m0 hok
              injection h with h1 h2
              subst h1
              subst h2
              have hne := customOrKeep_ne_nil _ _ _ _ hck
              exact setup_parts _ _ hne
                (get_color_hashmap_custom_keys colors _ _ hok)
    · exact RunSetup.noConfusion h

/-- C3 witness: the invariant evaluated on the default greyscale configuration
`num_steps = 2` — the mapping `[(127, white), (0, black)]` covers the boundary
sequence `[0, 127]`, and luminance 200 resolves to a key that is present. -/
theorem C3_witness :
    ((hmGet [(127, ⟨255, 255, 255⟩), (0, ⟨0, 0, 0⟩)] 0).isSome = true) ∧
    (∃ k, get_threshold_key 200 [0, 127] = some k ∧
      (hmGet [(127, ⟨255, 255, 255⟩), (0, ⟨0, 0, 0⟩)] k).isSome = true) :=
  ⟨((C3_theorem 2 [] [] false [0, 127] [(127, ⟨255, 255, 255⟩), (0, ⟨0, 0, 0⟩)]
      (by decide)).1 0).mpr (by decide),
   (C3_theorem 2 [] [] false [0, 127] [(127, ⟨255, 255, 255⟩), (0, ⟨0, 0, 0⟩)]
      (by decide)).2 200⟩

theorem dedupConsec_mem : ∀ (l : List Nat) (x : Nat), x ∈ dedupConsec l ↔ x ∈ l := by
  intro l
  induction l with
  | nil => intro x; rfl
  | cons a rest ih =>
    intro x
    cases rest with
    | nil => rfl
    | cons b t =>
      rw [dedupConsec]
      by_cases hab : a = b
      · rw [if_pos hab, ih x]
        subst hab
        simp [List.mem_cons]
      · rw [if_neg hab]
        simp only [List.mem_cons]
        rw [ih x]
        simp [List.mem_cons]

theorem dedupConsec_head : ∀ (b : Nat) (t : List Nat), ∃ t2, dedupConsec (b :: t) = b :: t2 := by
  intro b t
  induction t generalizing b with
  | nil => exact ⟨[], rfl⟩
  | cons c t ih =>
    rw [dedupConsec]
    by_cases hbc : b = c
    · rw [if_pos hbc]
      subst hbc
      exact ih b
    · rw [if_neg hbc]
      exact ⟨dedupConsec (c :: t), rfl⟩

theorem dedupConsec_pairwise_lt : ∀ (l : List Nat), List.Pairwise (· ≤ ·) l →
    List.Pairwise (· < ·) (dedupConsec l) := by
  intro l
  induction l with
  | nil => intro _; exact List.Pairwise.nil
  | cons a rest ih =>
    intro hp
    rw [List.pairwise_cons] at hp
    obtain ⟨hall, hrest⟩ := hp
    cases rest with
    | nil => exact List.pairwise_singleton _ _
    | cons b t =>
      rw [dedupConsec]
      by_cases hab : a = b
      · rw [if_pos hab]
        exact ih hrest
      · rw [if_neg hab]
        rw [List.pairwise_cons]
        refine ⟨?_, ih hrest⟩
        intro x hx
        have hxbt : x ∈ b :: t := (dedupConsec_mem (b :: t) x).mp hx
        have hax : a ≤ b := hall b (List.mem_cons_self b t)
        have hab2 : a < b := lt_of_le_of_ne hax hab
        rcases List.mem_cons.mp hxbt with h | h
        · rw [h]; exact hab2
        · have : b ≤ x := (List.pairwise_cons.mp hrest).1 x h
          omega

theorem dedupConsec_length_le : ∀ (l : List Nat), (dedupConsec l).length ≤ l.length := by
  intro l
  induction l with
  | nil => exact Nat.le_refl 0
  | cons a rest ih =>
    cases rest with
    | nil => exact Nat.le_refl 1
    | cons b t =>
      rw [dedupConsec]
      by_cases hab : a = b
      · rw [if_pos hab]
        exact Nat.le_succ_of_le ih
      · rw [if_neg hab]
        simpa using ih

theorem levelsOf_pairwise_lt (values : List Nat) : List.Pairwise (· < ·) (levelsOf values) :=
  dedupConsec_pairwise_lt _ (List.sorted_insertionSort (· ≤ ·) (values.map clampLevel))

theorem levelsOf_mem (values : List Nat) (x : Nat) :
    x ∈ levelsOf values ↔ x ∈ values.map clampLevel := by
  rw [levelsOf, dedupConsec_mem]
  exact (List.perm_insertionSort (· ≤ ·) (values.map clampLevel)).mem_iff

theorem levelsOf_le_10 (values : List Nat) : ∀ x ∈ levelsOf values, x ≤ 10 := by
  intro x hx
  rw [levelsOf_mem] at hx
  obtain ⟨v, _, hv⟩ := List.mem_map.mp hx
  rw [← hv, clampLevel]
  by_cases h : v < 11
  · rw [if_pos h]; omega
  · rw [if_neg h]

theorem levelsOf_length_le (values : List Nat) : (levelsOf values).length ≤ values.length := by
  rw [levelsOf]
  calc (dedupConsec (List.insertionSort (· ≤ ·) (values.map clampLevel))).length
      ≤ (List.insertionSort (· ≤ ·) (values.map clampLevel)).length :=
        dedupConsec_length_le _
    _ = (values.map clampLevel).length :=
        (List.perm_insertionSort (· ≤ ·) (values.map clampLevel)).length_eq
    _ = values.length := List.length_map _ _

theorem levelsOf_nodup (values : List Nat) : (levelsOf values).Nodup :=
  (levelsOf_pairwise_lt values).imp (fun h => Nat.ne_of_lt h)

theorem levelsOf_length_eq_dedup (values : List Nat) :
    (levelsOf values).length = ((values.map clampLevel).dedup).length := by
  have h1 : (levelsOf values).toFinset = (values.map clampLevel).toFinset := by
    apply Finset.ext
    intro x
    rw [List.mem_toFinset, List.mem_toFinset, levelsOf_mem]
  calc (levelsOf values).length
      = (levelsOf values).toFinset.card := (List.toFinset_card_of_nodup (levelsOf_nodup values)).symm
    _ = (values.map clampLevel).toFinset.card := by rw [h1]
    _ = ((values.map clampLevel).dedup).length := List.card_toFinset _

/-- Loop invariant of `customGo`: the counter is in range; while more levels
remain, `next` is the level value after the current one and the loop index has
not yet passed it; once the counter reaches the last level, `next` lies at or
behind the loop index, so the counter can no longer advance out of range. -/
def CustomInv (levels : List Nat) (n counter next : Nat) : Prop :=
  counter < levels.length ∧
  (counter + 1 < levels.length → levels.get? (counter + 1) = some next ∧ n + 1 ≤ next) ∧
  (counter + 1 = levels.length → next ≤ n)

theorem levels_mono_lt (levels : List Nat) (hlt : List.Pairwise (· < ·) levels)
    {j j2 L L2 : Nat} (hj : levels.get? j = some L) (hj2 : levels.get? j2 = some L2)
    (h : j < j2) : L < L2 := by
  obtain ⟨hb, he⟩ := List.get?_eq_some.mp hj
  obtain ⟨hb2, he2⟩ := List.get?_eq_some.mp hj2
  rw [← he, ← he2]
  exact List.pairwise_iff_get.mp hlt ⟨j, hb⟩ ⟨j2, hb2⟩ h

theorem levels_mono_le (levels : List Nat) (hlt : List.Pairwise (· < ·) levels)
    {j j2 L L2 : Nat} (hj : levels.get? j = some L) (hj2 : levels.get? j2 = some L2)
    (h : j ≤ j2) : L ≤ L2 := by
  rcases Nat.eq_or_lt_of_le h with heq | h2
  · subst heq
    rw [hj] at hj2
    injection hj2 with hh
    omega
  · exact Nat.le_of_lt (levels_mono_lt levels hlt hj hj2 h2)

theorem customGo_spec (levels : List Nat) (hlt : List.Pairwise (· < ·) levels)
    (h10 : ∀ x ∈ levels, x ≤ 10) :
    ∀ (fuel n counter next : Nat), n + fuel = 11 → CustomInv levels n counter next →
      ∃ l, customGo levels fuel n counter next = some l ∧
        l.length = fuel ∧
        (∀ x ∈ l, ∃ j L, counter ≤ j ∧ levels.get? j = some L ∧ x = L * 23) ∧
        List.Pairwise (· ≤ ·) l ∧
        (fuel ≠ 0 → ∀ L0, levels.get? counter = some L0 → l.head? = some (L0 * 23)) ∧
        (fuel ≠ 0 → (dedupConsec l).length = levels.length - counter) := by
  intro fuel
  induction fuel with
  | zero =>
    intro n counter next hn hinv
    exact ⟨[], rfl, rfl, by simp, List.Pairwise.nil, by simp, by simp⟩
  | succ f ih =>
    intro n counter next hn hinv
    obtain ⟨hcl, hbody, hlast⟩ := hinv
    obtain ⟨L0, hL0⟩ : ∃ L0, levels.get? counter = some L0 :=
      ⟨levels.get ⟨counter, hcl⟩, List.get?_eq_get hcl⟩
    have hL0le : L0 ≤ 10 := h10 L0 (List.get?_mem hL0)
    have hmod : (L0 * 23) % 256 = L0 * 23 := Nat.mod_eq_of_lt (by omega)
    by_cases hfire : n + 1 = next
    · have hcc : counter + 1 < levels.length := by
        by_contra hcon
        have heq : counter + 1 = levels.length := by omega
        have := hlast heq
        omega
      obtain ⟨hnext, hnle⟩ := hbody hcc
      have hnext10 : next ≤ 10 := h10 next (List.get?_mem hnext)
      have hf1 : 1 ≤ f := by omega
      have hL0next : L0 < next := levels_mono_lt levels hlt hL0 hnext (Nat.lt_succ_self counter)
      by_cases hc2 : counter + 1 < levels.length - 1
      · have hcc2 : counter + 2 < levels.length := by omega
        obtain ⟨nx, hnx⟩ : ∃ nx, levels.get? (counter + 2) = some nx :=
          ⟨levels.get ⟨counter + 2, hcc2⟩, List.get?_eq_get hcc2⟩
        have hnextnx : next < nx := levels_mono_lt levels hlt hnext hnx (by omega)
        have hinv2 : CustomInv levels (n + 1) (counter + 1) nx :=
          ⟨hcc, fun _ => ⟨hnx, by omega⟩, fun hcon => absurd hcon (by omega)⟩
        obtain ⟨rest, hrest, hlen, hmem, hpw, hhead, hdc⟩ :=
          ih (n + 1) (counter + 1) nx (by omega) hinv2
        refine ⟨L0 * 23 :: rest, ?_, ?_, ?_, ?_, ?_, ?_⟩
        · rw [customGo]
          simp only [hL0]
          rw [if_pos hfire, if_pos hc2]
          simp only [hnx, hrest, Option.map_some']
          rw [hmod]
        · simp [hlen]
        · intro x hx
          rcases List.mem_cons.mp hx with hx | hx
          · exact ⟨counter, L0, Nat.le_refl _, hL0, hx⟩
          · obtain ⟨j, L, hj, hgj, hxe⟩ := hmem x hx
            exact ⟨j, L, by omega, hgj, hxe⟩
        · rw [List.pairwise_cons]
          refine ⟨?_, hpw⟩
          intro x hx
          obtain ⟨j, L, hj, hgj, hxe⟩ := hmem x hx
          have hLL : L0 ≤ L := levels_mono_le levels hlt hL0 hgj (by omega)
          rw [hxe]
          omega
        · intro _ L0' hL0'
          rw [hL0] at hL0'
          injection hL0' with hh
          rw [← hh]
          rfl
        · intro _
          cases rest with
          | nil =>
            rw [List.length_nil] at hlen
            omega
          | cons r t =>
            have hrhead : r = next * 23 := by
              have hh := hhead (by omega) next hnext
              rw [List.head?_cons] at hh
              exact Option.some.inj hh
            have hne : ¬ (L0 * 23 = r) := by
              rw [hrhead]
              intro hcon
              omega
            rw [dedupConsec, if_neg hne, List.length_cons, hdc (by omega)]
            omega
      · have hinv2 : CustomInv levels (n + 1) (counter + 1) next :=
          ⟨hcc, fun hcon => absurd (by omega : counter + 1 < levels.length - 1) hc2,
           fun _ => by omega⟩
        obtain ⟨rest, hrest, hlen, hmem, hpw, hhead, hdc⟩ :=
          ih (n + 1) (counter + 1) next (by omega) hinv2
        refine ⟨L0 * 23 :: rest, ?_, ?_, ?_, ?_, ?_, ?_⟩
        · rw [customGo]
          simp only [hL0]
          rw [if_pos hfire, if_neg hc2]
          simp only [hrest, Option.map_some']
          rw [hmod]
        · simp [hlen]
        · intro x hx
          rcases List.mem_cons.mp hx with hx | hx
          · exact ⟨counter, L0, Nat.le_refl _, hL0, hx⟩
          · obtain ⟨j, L, hj, hgj, hxe⟩ := hmem x hx
            exact ⟨j, L, by omega, hgj, hxe⟩
        · rw [List.pairwise_cons]
          refine ⟨?_, hpw⟩
          intro x hx
          obtain ⟨j, L, hj, hgj, hxe⟩ := hmem x hx
          have hLL : L0 ≤ L := levels_mono_le levels hlt hL0 hgj (by omega)
          rw [hxe]
          omega
        · intro _ L0' hL0'
          rw [hL0] at hL0'
          injection hL0' with hh
          rw [← hh]
          rfl
        · intro _
          cases rest with
          | nil =>
            rw [List.length_nil] at hlen
            omega
          | cons r t =>
            have hrhead : r = next * 23 := by
              have hh := hhead (by omega) next hnext
              rw [List.head?_cons] at hh
              exact Option.some.inj hh
            have hne : ¬ (L0 * 23 = r) := by
              rw [hrhead]
              intro hcon
              omega
            rw [dedupConsec, if_neg hne, List.length_cons, hdc (by omega)]
            omega
    · have hinv2 : CustomInv levels (n + 1) counter next := by
        refine ⟨hcl, fun hcc => ?_, fun hcon => ?_⟩
        · obtain ⟨hnext, hnle⟩ := hbody hcc
          exact ⟨hnext, by omega⟩
        · exact Nat.le_trans (hlast hcon) (Nat.le_succ n)
      obtain ⟨rest, hrest, hlen, hmem, hpw, hhead, hdc⟩ :=
        ih (n + 1) counter next (by omega) hinv2
      refine ⟨L0 * 23 :: rest, ?_, ?_, ?_, ?_, ?_, ?_⟩
      · rw [customGo]
        simp only [hL0]
        rw [if_neg hfire]
        simp only [hrest, Option.map_some']
        rw [hmod]
      · simp [hlen]
      · intro x hx
        rcases List.mem_cons.mp hx with hx | hx
        · exact ⟨counter, L0, Nat.le_refl _, hL0, hx⟩
        · exact hmem x hx
      · rw [List.pairwise_cons]
        refine ⟨?_, hpw⟩
        intro x hx
        obtain ⟨j, L, hj, hgj, hxe⟩ := hmem x hx
        have hLL : L0 ≤ L := levels_mono_le levels hlt hL0 hgj hj
        rw [hxe]
        omega
      · intro _ L0' hL0'
        rw [hL0] at hL0'
        injection hL0' with hh
        rw [← hh]
        rfl
      · intro _
        cases rest with
        | nil =>
          have hf0 : f = 0 := by
            rw [List.length_nil] at hlen
            omega
          have hn10 : n = 10 := by omega
          have hcounter : counter + 1 = levels.length := by
            by_contra hcon
            have hcc : counter + 1 < levels.length := by omega
            obtain ⟨hnext, hnle⟩ := hbody hcc
            have : next ≤ 10 := h10 next (List.get?_mem hnext)
            omega
          rw [dedupConsec]
          simp
          omega
        | cons r t =>
          have hfne : f ≠ 0 := by
            rw [List.length_cons] at hlen
            omega
          have hrhead : r = L0 * 23 := by
            have hh := hhead hfne L0 hL0
            rw [List.head?_cons] at hh
            exact Option.some.inj hh
          rw [dedupConsec, if_pos hrhead.symm, hdc hfne]

theorem luma_threshold_custom_isSome (values : List Nat)
    (h2 : 2 ≤ (levelsOf values).length) :
    ∃ l, luma_threshold_custom values = some l ∧
      l.length = 11 ∧
      (∀ x ∈ l, ∃ j L, 0 ≤ j ∧ (levelsOf values).get? j = some L ∧ x = L * 23) ∧
      List.Pairwise (· ≤ ·) l ∧
      (dedupConsec l).length = (levelsOf values).length := by
  have h1 : 1 < (levelsOf values).length := by omega
  have h0 : 0 < (levelsOf values).length := by omega
  obtain ⟨nx, hnx⟩ : ∃ nx, (levelsOf values).get? 1 = some nx :=
    ⟨(levelsOf values).get ⟨1, h1⟩, List.get?_eq_get h1⟩
  obtain ⟨L0, hL0⟩ : ∃ L0, (levelsOf values).get? 0 = some L0 :=
    ⟨(levelsOf values).get ⟨0, h0⟩, List.get?_eq_get h0⟩
  have hnx1 : 1 ≤ nx := by
    have := levels_mono_lt (levelsOf values) (levelsOf_pairwise_lt values) hL0 hnx
      (by omega)
    omega
  have hinv : CustomInv (levelsOf values) 0 0 nx :=
    ⟨h0, fun _ => ⟨hnx, hnx1⟩, fun hcon => by omega⟩
  obtain ⟨l, hgo, hlen, hmem, hpw, _, hdc⟩ :=
    customGo_spec (levelsOf values) (levelsOf_pairwise_lt values)
      (levelsOf_le_10 values) 11 0 0 nx (by omega) hinv
  refine ⟨l, ?_, hlen, hmem, hpw, ?_⟩
  · rw [luma_threshold_custom, hnx]
    exact hgo
  · rw [hdc (by omega)]
    exact Nat.sub_zero _

theorem luma_threshold_custom_some_levels (values : List Nat) (l : List Nat)
    (h : luma_threshold_custom values = some l) : 2 ≤ (levelsOf values).length := by
  rw [luma_threshold_custom] at h
  cases hg : (levelsOf values).get? 1 with
  | none => rw [hg] at h; exact Option.noConfusion h
  | some nx =>
    obtain ⟨hb, _⟩ := List.get?_eq_some.mp hg
    omega

/-- C10: `luma_threshold_custom` is panic-free — it then returns exactly 11
non-decreasing values, each a multiple of 23 in [0, 230] — if and only if the
clamped, deduplicated input contains at least 2 distinct levels; inputs whose
supplied count is in the accepted range [2, 11] but with fewer than 2 distinct
clamped levels, such as `[7, 7]` or `[12, 15]`, make the `unwrap` at the top
of the loop panic instead of reporting a configuration error. -/
theorem C10_theorem :
    (∀ values : List Nat, (luma_threshold_custom values).isSome = true ↔
        2 ≤ ((values.map clampLevel).dedup).length) ∧
    (∀ values l, luma_threshold_custom values = some l →
        l.length = 11 ∧ List.Pairwise (· ≤ ·) l ∧ (∀ x ∈ l, x % 23 = 0 ∧ x ≤ 230)) ∧
    luma_threshold_custom [7, 7] = none ∧
    luma_threshold_custom [12, 15] = none := by
  refine ⟨?_, ?_, by decide, by decide⟩
  · intro values
    rw [← levelsOf_length_eq_dedup]
    constructor
    · intro h
      obtain ⟨l, hl⟩ := Option.isSome_iff_exists.mp h
      exact luma_threshold_custom_some_levels values l hl
    · intro h2
      obtain ⟨l, hl, _⟩ := luma_threshold_custom_isSome values h2
      rw [hl]
      rfl
  · intro values l h
    have h2 := luma_threshold_custom_some_levels values l h
    obtain ⟨l2, hl2, hlen, hmem, hpw, _⟩ := luma_threshold_custom_isSome values h2
    rw [h] at hl2
    injection hl2 with hl2
    subst hl2
    refine ⟨hlen, hpw, fun x hx => ?_⟩
    obtain ⟨j, L, _, hgj, hxe⟩ := hmem x hx
    have hL10 : L ≤ 10 := levelsOf_le_10 values L (List.get?_mem hgj)
    constructor
    · rw [hxe]
      exact Nat.mul_mod_left L 23
    · rw [hxe]
      omega

/-- C10 witness: for `values = [0, 5]` the clamped deduplicated input has 2
distinct levels and the function succeeds, returning 11 non-decreasing
multiples of 23. -/
theorem C10_witness :
    (luma_threshold_custom [0, 5]).isSome = true ∧
    (∀ x ∈ ([0, 0, 0, 0, 0, 115, 115, 115, 115, 115, 115] : List Nat),
      x % 23 = 0 ∧ x ≤ 230) :=
  ⟨(C10_theorem.1 [0, 5]).mpr (by decide),
   (C10_theorem.2.1 [0, 5] [0, 0, 0, 0, 0, 115, 115, 115, 115, 115, 115]
      (by decide)).2.2⟩

/-- Number of value changes seen while scanning `vec` when the current value
is `curr` — the total increment of `counter` in `luma_threshold_keep`. -/
def chg (curr : Nat) : List Nat → Nat
  | [] => 0
  | i :: t => if i = curr then chg curr t else 1 + chg i t

theorem chg_dc : ∀ (vec : List Nat) (curr : Nat),
    chg curr vec + 1 = (dedupConsec (curr :: vec)).length := by
  intro vec
  induction vec with
  | nil => intro curr; rfl
  | cons i t ih =>
    intro curr
    by_cases hic : i = curr
    · subst hic
      rw [chg, if_pos rfl, dedupConsec, if_pos rfl]
      exact ih i
    · rw [chg, if_neg hic, dedupConsec, if_neg (fun h => hic h.symm), List.length_cons]
      rw [← ih i]
      omega

theorem mulmod_ne (step a b : Nat) (hstep : 0 < step) (hab : a < b) (hb : b * step < 256) :
    ¬ (a * step % 256 = b * step % 256) := by
  have h1 : (a + 1) * step ≤ b * step := Nat.mul_le_mul_right step (by omega)
  have h2 : (a + 1) * step = a * step + step := Nat.succ_mul a step
  have ha : a * step < 256 := by omega
  rw [Nat.mod_eq_of_lt ha, Nat.mod_eq_of_lt hb]
  omega

theorem dedupConsec_cons_head (a o : Nat) (l : List Nat) (h : l.head? = some o) :
    dedupConsec (a :: l) = if a = o then dedupConsec l else a :: dedupConsec l := by
  cases l with
  | nil => exact Option.noConfusion h
  | cons b t =>
    rw [List.head?_cons] at h
    injection h with h
    subst h
    rw [dedupConsec]

theorem keepGo_head (step : Nat) (r : Nat) (t : List Nat) (counter curr : Nat) :
    (keepGo step (r :: t) counter curr).head? =
      some (if r = curr then counter * step % 256 else (counter + 1) * step % 256) := by
  rw [keepGo]
  by_cases h : r = curr
  · rw [if_neg (fun h2 => h2 h), if_pos h, List.head?_cons]
  · rw [if_pos h, if_neg h, List.head?_cons]

/-- Shape of the consecutive-deduplicated output of the keep-mode loop: one
entry per counter value, from the starting counter (or its successor when the
first element already differs from `curr`) through the final counter. -/
def keepShape (step counter : Nat) (curr : Nat) : List Nat → List Nat
  | [] => []
  | i :: t =>
    if i = curr then (List.range' counter (chg curr (i :: t) + 1)).map (fun j => j * step % 256)
    else (List.range' (counter + 1) (chg curr (i :: t))).map (fun j => j * step % 256)

theorem keepGo_dc (step : Nat) (hstep : 0 < step) :
    ∀ (vec : List Nat) (counter curr : Nat),
      (counter + chg curr vec) * step < 256 →
      dedupConsec (keepGo step vec counter curr) = keepShape step counter curr vec := by
  intro vec
  induction vec with
  | nil => intro _ _ _; rfl
  | cons i rest ih =>
    intro counter curr hbound
    by_cases hic : i = curr
    · have hchg : chg curr (i :: rest) = chg curr rest := by rw [chg, if_pos hic]
      rw [keepGo, if_neg (fun h => h hic), keepShape, if_pos hic, hchg]
      cases rest with
      | nil => rfl
      | cons r t =>
        have hbound2 : (counter + chg curr (r :: t)) * step < 256 := by
          rw [hchg] at hbound
          exact hbound
        have ihr := ih counter curr hbound2
        rw [dedupConsec_cons_head _ _ _ (keepGo_head step r t counter curr)]
        by_cases hrc : r = curr
        · rw [keepShape, if_pos hrc] at ihr
          rw [if_pos hrc, if_pos rfl, ihr]
        · rw [keepShape, if_neg hrc] at ihr
          rw [if_neg hrc]
          have hchg2 : chg curr (r :: t) = 1 + chg r t := by rw [chg, if_neg hrc]
          have hb2 : (counter + 1) * step < 256 := by
            have : (counter + 1) * step ≤ (counter + chg curr (r :: t)) * step :=
              Nat.mul_le_mul_right step (by omega)
            omega
          rw [if_neg (mulmod_ne step counter (counter + 1) hstep (by omega) hb2)]
          rw [ihr]
          rw [show List.range' counter (chg curr (r :: t) + 1) =
            counter :: List.range' (counter + 1) (chg curr (r :: t)) from rfl]
          rw [List.map_cons]
    · have hchg : chg curr (i :: rest) = 1 + chg i rest := by rw [chg, if_neg hic]
      rw [keepGo, if_pos hic, keepShape, if_neg hic, hchg]
      cases rest with
      | nil => rfl
      | cons r t =>
        have hbound2 : (counter + 1 + chg i (r :: t)) * step < 256 := by
          have he : counter + chg curr (i :: r :: t) = counter + 1 + chg i (r :: t) := by
            rw [hchg]
            omega
          rw [he] at hbound
          exact hbound
        have ihr := ih (counter + 1) i hbound2
        rw [dedupConsec_cons_head _ _ _ (keepGo_head step r t (counter + 1) i)]
        by_cases hri : r = i
        · rw [keepShape, if_pos hri] at ihr
          rw [if_pos hri, if_pos rfl, ihr, Nat.add_comm 1 (chg i (r :: t))]
        · rw [keepShape, if_neg hri] at ihr
          rw [if_neg hri]
          have hchg2 : chg i (r :: t) = 1 + chg r t := by rw [chg, if_neg hri]
          have hb2 : (counter + 2) * step < 256 := by
            have : (counter + 2) * step ≤ (counter + 1 + chg i (r :: t)) * step :=
              Nat.mul_le_mul_right step (by omega)
            omega
          rw [if_neg (mulmod_ne step (counter + 1) (counter + 2) hstep (by omega) hb2)]
          rw [ihr, Nat.add_comm 1 (chg i (r :: t))]
          rw [show List.range' (counter + 1) (chg i (r :: t) + 1) =
            (counter + 1) :: List.range' (counter + 2) (chg i (r :: t)) from rfl]
          rw [List.map_cons]

/-- C6: for every supplied values list of 2 to 11 levels whose clamped,
deduplicated form keeps at least 2 distinct levels, the number of distinct
values in `luma_threshold_keep (luma_threshold_custom values) values_len`
equals the number of distinct clamped levels of the input. -/
theorem C6_theorem : ∀ (values : List Nat), 2 ≤ values.length → values.length ≤ 11 →
    2 ≤ ((values.map clampLevel).dedup).length →
    ∃ cv kv, luma_threshold_custom values = some cv ∧
      luma_threshold_keep cv values.length = some kv ∧
      kv.dedup.length = ((values.map clampLevel).dedup).length := by
  intro values hlen2 hlen11 hdist
  have hd : 2 ≤ (levelsOf values).length := by
    rw [levelsOf_length_eq_dedup]
    exact hdist
  obtain ⟨cv, hcv, hcvlen, hmem, hpw, hdc⟩ := luma_threshold_custom_isSome values hd
  cases cv with
  | nil => rw [List.length_nil] at hcvlen; omega
  | cons c rest =>
    have hnum0 : ¬ values.length = 0 := by omega
    refine ⟨c :: rest, keepGo (255 / values.length) (c :: rest) 0 c, hcv, ?_, ?_⟩
    · rw [luma_threshold_keep.eq_def, if_neg hnum0]
    · have hstep : 0 < 255 / values.length := Nat.div_pos (by omega) (by omega)
      have hchg : chg c (c :: rest) + 1 = (levelsOf values).length := by
        have h1 := chg_dc (c :: rest) c
        rw [show dedupConsec (c :: c :: rest) = dedupConsec (c :: rest) from
          by rw [dedupConsec, if_pos rfl]] at h1
        exact h1.trans hdc
      have hdle : (levelsOf values).length ≤ values.length := levelsOf_length_le values
      have hbound : (0 + chg c (c :: rest)) * (255 / values.length) < 256 := by
        have hA : 255 / values.length * values.length ≤ 255 :=
          Nat.div_mul_le_self 255 values.length
        have hB : (0 + chg c (c :: rest)) * (255 / values.length) ≤
            (values.length - 1) * (255 / values.length) :=
          Nat.mul_le_mul_right (255 / values.length) (by omega)
        have hC : (values.length - 1) * (255 / values.length) =
            values.length * (255 / values.length) - 1 * (255 / values.length) :=
          Nat.sub_mul values.length 1 (255 / values.length)
        have hD : values.length * (255 / values.length) =
            255 / values.length * values.length := Nat.mul_comm _ _
        omega
      have hkdc := keepGo_dc (255 / values.length) hstep (c :: rest) 0 c hbound
      rw [keepShape, if_pos rfl] at hkdc
      have hfin : (keepGo (255 / values.length) (c :: rest) 0 c).toFinset =
          (dedupConsec (keepGo (255 / values.length) (c :: rest) 0 c)).toFinset :=
        Finset.ext (fun x => by rw [List.mem_toFinset, List.mem_toFinset, dedupConsec_mem])
      have hnodup : (dedupConsec (keepGo (255 / values.length) (c :: rest) 0 c)).Nodup := by
        rw [hkdc]
        refine List.Nodup.map_on ?_ (List.nodup_range' 0 (chg c (c :: rest) + 1))
        intro x hx y hy hxy
        rw [List.mem_range'_1] at hx hy
        have hxb : x * (255 / values.length) ≤ (0 + chg c (c :: rest)) * (255 / values.length) :=
          Nat.mul_le_mul_right (255 / values.length) (by omega)
        have hyb : y * (255 / values.length) ≤ (0 + chg c (c :: rest)) * (255 / values.length) :=
          Nat.mul_le_mul_right (255 / values.length) (by omega)
        by_contra hne2
        rcases Nat.lt_or_ge x y with hlt2 | hge
        · exact mulmod_ne (255 / values.length) x y hstep hlt2 (by omega) hxy
        · exact mulmod_ne (255 / values.length) y x hstep (by omega) (by omega) hxy.symm
      calc (keepGo (255 / values.length) (c :: rest) 0 c).dedup.length
          = (keepGo (255 / values.length) (c :: rest) 0 c).toFinset.card :=
            (List.card_toFinset _).symm
        _ = (dedupConsec (keepGo (255 / values.length) (c :: rest) 0 c)).toFinset.card := by
            rw [hfin]
        _ = (dedupConsec (keepGo (255 / values.length) (c :: rest) 0 c)).length :=
            List.toFinset_card_of_nodup hnodup
        _ = (levelsOf values).length := by
            rw [hkdc, List.length_map, List.length_range']
            exact hchg
        _ = ((values.map clampLevel).dedup).length := levelsOf_length_eq_dedup values

/-- C6 witness: for `values = [0, 5, 5]` (3 entries, 2 distinct levels) the
keep-mode output has exactly 2 distinct values. -/
theorem C6_witness :
    ∃ cv kv, luma_threshold_custom [0, 5, 5] = some cv ∧
      luma_threshold_keep cv ([0, 5, 5] : List Nat).length = some kv ∧
      kv.dedup.length = ((([0, 5, 5] : List Nat).map clampLevel).dedup).length :=
  C6_theorem [0, 5, 5] (by decide) (by decide) (by decide)
